import Mathlib

/-!
Shallow embedding of the task-partitioned loss-aggregation pipeline of
openquake/calculators/event_based_risk.py, together with theorems that
check the specification claims against the embedded code.

Conventions of the embedding:
* numpy float arrays are modelled with an arbitrary commutative ring
  (instantiated with the reals when a claim speaks about square roots,
  and with the rationals in concrete evaluations);
* numpy.sqrt is passed in as an explicit function parameter, so the
  definitions stay executable; the claims instantiate it with Real.sqrt;
* an AccumDict with a zero default is represented by its value function
  (the value at a key is the sum of all contributions accumulated on it,
  and an untouched key holds the zero vector);
* pandas groupby plus per-group += accumulation therefore becomes, for
  each key, the sum of the mapped field over the rows sent to that key.
-/

namespace EventBasedRisk

/-- One row of the asset-level loss table (the alt dataframe consumed by
aggregate_losses): event id, asset ordinal, loss and variance. -/
structure LossRow (α : Type) where
  eid : ℕ
  aid : ℕ
  loss : α
  variance : α
deriving DecidableEq

/-- Lookup of the aggregation key of a row: kids[alt.aid] in the source
(line 59 of event_based_risk.py). -/
def kidOf (kids : List ℕ) {α : Type} (r : LossRow α) : ℕ := kids.getD r.aid 0

/-- x = numpy.sqrt(alt.variance) if correl else alt.variance
(line 56 of event_based_risk.py). -/
def xval {α : Type} (sqrt : α → α) (correl : Bool) (v : α) : α :=
  if correl then sqrt v else v

/-- Total contribution accumulated at key (e, k) for a numeric field f of
the rows: the groupby over (eid, kid), performed only when kids is
nonempty (lines 58-63), plus the groupby over eid alone sent to the
implicit total key K (lines 64-66).  Each AccumDict entry is the sum of
the contributions += into it. -/
def contribSum {α : Type} [CommRing α] (K : ℕ) (kids : List ℕ)
    (rows : List (LossRow α)) (f : LossRow α → α) (e k : ℕ) : α :=
  (rows.map (fun r =>
    if kids ≠ [] ∧ r.eid = e ∧ kidOf kids r = k then f r else 0)).sum
  + (if k = K then (rows.map (fun r => if r.eid = e then f r else 0)).sum
     else 0)

/-- aggregate_losses (lines 48-70 of event_based_risk.py): the returned
accumulator maps each key (eid, kid) to the pair (summed loss, x), where
the x component is squared at the end when correl is set (lines 67-69);
keys with no contribution hold (0, 0), which the final squaring fixes. -/
def aggregate_losses {α : Type} [CommRing α] (sqrt : α → α) (correl : Bool)
    (K : ℕ) (kids : List ℕ) (rows : List (LossRow α)) : ℕ × ℕ → α × α :=
  fun ek =>
    (contribSum K kids rows (fun r => r.loss) ek.1 ek.2,
     (fun x => if correl then x ^ 2 else x)
       (contribSum K kids rows (fun r => xval sqrt correl r.variance)
         ek.1 ek.2))

/-- Pointwise += merge of two accumulators, as performed by
loss_by_EK1[ln] += aggregate_losses(...) at line 116. -/
def lbeAdd {α : Type} [CommRing α] (d1 d2 : ℕ × ℕ → α × α) : ℕ × ℕ → α × α :=
  fun ek => ((d1 ek).1 + (d2 ek).1, (d1 ek).2 + (d2 ek).2)

/-- The empty accumulator created at lines 95-96. -/
def lbeZero {α : Type} [CommRing α] : ℕ × ℕ → α × α := fun _ => (0, 0)

/-- Claim C2: within one batch, two rows contributing to the same
(event id, aggregation key) entry produce a combined variance equal to
v1 + v2 when correl = 0 and to (sqrt v1 + sqrt v2) ^ 2 when correl = 1. -/
theorem claim_C2 (correl : Bool) (e k K : ℕ) (l1 l2 v1 v2 : ℝ) (h : k ≠ K) :
    (aggregate_losses Real.sqrt correl K [k, k]
      [⟨e, 0, l1, v1⟩, ⟨e, 1, l2, v2⟩] (e, k)).2
      = if correl then (Real.sqrt v1 + Real.sqrt v2) ^ 2 else v1 + v2 := by
  cases correl <;> simp [aggregate_losses, contribSum, kidOf, xval, h]

/-- Witness for claim C2 at a concrete input. -/
theorem claim_C2_witness :
    (0 : ℕ) ≠ 1 ∧
    (aggregate_losses Real.sqrt true 1 [0, 0]
      [⟨7, 0, 2, 9⟩, ⟨7, 1, 3, 16⟩] (7, 0)).2
      = (Real.sqrt 9 + Real.sqrt 16) ^ 2 :=
  ⟨by decide, by simpa using claim_C2 true 7 0 1 2 3 9 16 (by decide)⟩

/-- Claim C7: for chunks A and B with disjoint event ids, the += merge of
their accumulators agrees, on the loss component of every key, with the
accumulator of the single-pass aggregation of A ++ B, in both correlation
modes. -/
theorem claim_C7 {α : Type} [CommRing α] (sqrt : α → α) (correl : Bool)
    (K : ℕ) (kids : List ℕ) (A B : List (LossRow α))
    (h : ∀ ra ∈ A, ∀ rb ∈ B, ra.eid ≠ rb.eid) (ek : ℕ × ℕ) :
    (lbeAdd (aggregate_losses sqrt correl K kids A)
      (aggregate_losses sqrt correl K kids B) ek).1
      = (aggregate_losses sqrt correl K kids (A ++ B) ek).1 := by
  simp only [lbeAdd, aggregate_losses, contribSum, List.map_append,
    List.sum_append]
  by_cases hk : ek.2 = K <;> simp [hk] <;> ring

/-- Witness for claim C7 at a concrete input. -/
theorem claim_C7_witness :
    (∀ ra ∈ ([⟨1, 0, 2, 3⟩] : List (LossRow ℚ)),
      ∀ rb ∈ ([⟨2, 0, 5, 7⟩] : List (LossRow ℚ)), ra.eid ≠ rb.eid) ∧
    (lbeAdd (aggregate_losses id true 0 [] [⟨1, 0, 2, 3⟩])
      (aggregate_losses id true 0 [] [⟨2, 0, 5, 7⟩]) (1, 0)).1
      = (aggregate_losses id true 0 []
          (([⟨1, 0, 2, 3⟩] : List (LossRow ℚ)) ++ [⟨2, 0, 5, 7⟩]) (1, 0)).1 :=
  ⟨by decide, claim_C7 id true 0 [] _ _ (by decide) (1, 0)⟩

/-- Claim C10: with correl = 1, merging the accumulators of two separate
aggregate_losses calls (one per taxonomy group) adds the already squared
variances: the merged variance at any key is sA ^ 2 + sB ^ 2, where sA
and sB are the per-call sums of the square roots of the variances sent to
that key; at a concrete input this differs from (sA + sB) ^ 2, so the
standard-deviation-additive rule holds only within one call. -/
theorem claim_C10 :
    (∀ (K : ℕ) (kids : List ℕ) (A B : List (LossRow ℝ)) (ek : ℕ × ℕ),
      (lbeAdd (aggregate_losses Real.sqrt true K kids A)
        (aggregate_losses Real.sqrt true K kids B) ek).2
        = contribSum K kids A (fun r => Real.sqrt r.variance) ek.1 ek.2 ^ 2
          + contribSum K kids B (fun r => Real.sqrt r.variance) ek.1 ek.2 ^ 2)
    ∧ (lbeAdd (aggregate_losses Real.sqrt true 5 [0] [⟨0, 0, 0, 1⟩])
        (aggregate_losses Real.sqrt true 5 [0] [⟨0, 0, 0, 1⟩]) (0, 0)).2 = 2
    ∧ (Real.sqrt 1 + Real.sqrt 1) ^ 2 = 4
    ∧ (2 : ℝ) ≠ 4 := by
  refine ⟨?_, ?_, ?_, by norm_num⟩
  · intro K kids A B ek
    simp [lbeAdd, aggregate_losses, xval]
  · simp [lbeAdd, aggregate_losses, contribSum, kidOf, xval, Real.sqrt_one]
    norm_num
  · rw [Real.sqrt_one]; norm_num

/-- Helper: a mapped if-then-else sum vanishes when no row satisfies the
condition. -/
lemma sum_map_ite_zero {α : Type} [CommRing α] (rows : List (LossRow α))
    (p : LossRow α → Prop) [DecidablePred p] (g : LossRow α → α)
    (h : ∀ r ∈ rows, ¬ p r) :
    (rows.map (fun r => if p r then g r else 0)).sum = 0 := by
  induction rows with
  | nil => simp
  | cons r rows ih =>
    simp only [List.map_cons, List.sum_cons]
    rw [if_neg (h r (List.mem_cons_self r rows)),
      ih (fun r hr => h r (List.mem_cons_of_mem _ hr))]
    ring

/-- Helper: summing the per-key group sums over all keys below K recovers
the unkeyed sum, provided every row is sent to a key below K. -/
lemma sum_range_sum_map {α : Type} [CommRing α] (K : ℕ)
    (rows : List (LossRow α)) (p : LossRow α → Prop) [DecidablePred p]
    (kid : LossRow α → ℕ) (g : LossRow α → α)
    (h : ∀ r ∈ rows, kid r < K) :
    ∑ k ∈ Finset.range K,
      (rows.map (fun r => if p r ∧ kid r = k then g r else 0)).sum
      = (rows.map (fun r => if p r then g r else 0)).sum := by
  induction rows with
  | nil => simp
  | cons r rows ih =>
    simp only [List.map_cons, List.sum_cons]
    rw [Finset.sum_add_distrib,
      ih (fun r hr => h r (List.mem_cons_of_mem _ hr))]
    congr 1
    by_cases hp : p r
    · rw [if_pos hp]
      have heq : ∀ k ∈ Finset.range K,
          (if p r ∧ kid r = k then g r else 0)
            = (if kid r = k then (fun _ => g r) k else 0) := by
        intro k _
        by_cases hk : kid r = k
        · rw [if_pos ⟨hp, hk⟩, if_pos hk]
        · rw [if_neg (fun hh => hk hh.2), if_neg hk]
      rw [Finset.sum_congr rfl heq, Finset.sum_ite_eq]
      rw [if_pos (Finset.mem_range.2 (h r (List.mem_cons_self r rows)))]
    · simp [hp]

/-- Claim C5: in every accumulator returned by aggregate_losses, for each
event id the losses stored at the explicit keys 0..K-1 sum to the loss
stored at the implicit total key K, provided the kids mapping is in use
and sends every row to a key below K (exact arithmetic). -/
theorem claim_C5 {α : Type} [CommRing α] (sqrt : α → α) (correl : Bool)
    (K : ℕ) (kids : List ℕ) (rows : List (LossRow α)) (e : ℕ)
    (hk : kids ≠ []) (hall : ∀ r ∈ rows, kidOf kids r < K) :
    ∑ k ∈ Finset.range K, (aggregate_losses sqrt correl K kids rows (e, k)).1
      = (aggregate_losses sqrt correl K kids rows (e, K)).1 := by
  simp only [aggregate_losses]
  have hKK : ∀ k ∈ Finset.range K, k ≠ K := by
    intro k hk'
    exact Nat.ne_of_lt (Finset.mem_range.1 hk')
  calc
    ∑ k ∈ Finset.range K, contribSum K kids rows (fun r => r.loss) e k
        = ∑ k ∈ Finset.range K,
            (rows.map (fun r =>
              if (kids ≠ [] ∧ r.eid = e) ∧ kidOf kids r = k then r.loss
              else 0)).sum := by
          refine Finset.sum_congr rfl (fun k hk' => ?_)
          simp only [contribSum, if_neg (hKK k hk'), add_zero, and_assoc]
    _ = (rows.map (fun r =>
          if kids ≠ [] ∧ r.eid = e then r.loss else 0)).sum := by
          exact sum_range_sum_map K rows _ (kidOf kids) _
            (fun r hr => hall r hr)
    _ = contribSum K kids rows (fun r => r.loss) e K := by
          have hz : (rows.map (fun r =>
              if kids ≠ [] ∧ r.eid = e ∧ kidOf kids r = K then r.loss
              else 0)).sum = 0 :=
            sum_map_ite_zero rows _ _
              (fun r hr hx => Nat.ne_of_lt (hall r hr) hx.2.2)
          simp only [contribSum, if_pos rfl, hz, zero_add]
          simp [hk]

/-- Witness for claim C5 at a concrete input. -/
theorem claim_C5_witness :
    ([0, 1] : List ℕ) ≠ [] ∧
    (∀ r ∈ ([⟨3, 0, 10, 1⟩, ⟨3, 1, 20, 2⟩] : List (LossRow ℚ)),
      kidOf [0, 1] r < 2) ∧
    ∑ k ∈ Finset.range 2,
      (aggregate_losses id false 2 [0, 1]
        ([⟨3, 0, 10, 1⟩, ⟨3, 1, 20, 2⟩] : List (LossRow ℚ)) (3, k)).1
      = (aggregate_losses id false 2 [0, 1]
          ([⟨3, 0, 10, 1⟩, ⟨3, 1, 20, 2⟩] : List (LossRow ℚ)) (3, 2)).1 :=
  ⟨by decide, by decide,
    claim_C5 id false 2 [0, 1] _ 3 (by decide) (by decide)⟩

/-- Consecutive runs of equal event ids, as produced by the
itertools.groupby(eids) loop of gen_args (line 434): each pair is
(event id, number of rows of the run). -/
def consRun (a : ℕ) : List (ℕ × ℕ) → List (ℕ × ℕ)
  | [] => [(a, 1)]
  | (b, n) :: rs => if a = b then (a, n + 1) :: rs else (a, 1) :: (b, n) :: rs

def runs : List ℕ → List (ℕ × ℕ)
  | [] => []
  | a :: l => consRun a (runs l)

/-- Rebuild the flat eid column from its runs. -/
def expandRuns : List (ℕ × ℕ) → List ℕ
  | [] => []
  | (e, n) :: rs => List.replicate n e ++ expandRuns rs

/-- Total number of rows covered by a list of runs. -/
def sumLens (rs : List (ℕ × ℕ)) : ℕ := (rs.map (fun p => p.2)).sum

/-- The loop of gen_args (lines 430-443): walk the runs keeping the
chunk start, the global stop position and the accumulated weight; a slice
is yielded as soon as the weight exceeds maxweight, and a final slice is
yielded when some weight is left over. -/
def genArgsAux (maxw : ℚ) : List (ℕ × ℕ) → ℕ → ℕ → ℕ → List (ℕ × ℕ)
  | [], start, stop, weight => if weight ≠ 0 then [(start, stop)] else []
  | (_, n) :: rs, start, stop, weight =>
    if maxw < ((weight + n : ℕ) : ℚ) then
      (start, stop + n) :: genArgsAux maxw rs (stop + n) (stop + n) 0
    else
      genArgsAux maxw rs start (stop + n) (weight + n)

/-- gen_args (lines 423-443): the produced chunk descriptors, as pairs
(start, stop) of the yielded slices over the eid column.  In the source
maxweight is len(eids) / concurrent_tasks, a float; it is kept here as an
arbitrary rational parameter. -/
def gen_args (maxw : ℚ) (eids : List ℕ) : List (ℕ × ℕ) :=
  genArgsAux maxw (runs eids) 0 0 0

/-- The rows selected by a slice (start, stop). -/
def sliceL (l : List ℕ) (s t : ℕ) : List ℕ := (l.drop s).take (t - s)

/-- The chunk list cs tiles the half-open interval from a to b: slices
are contiguous, in order, nonempty and pairwise disjoint. -/
def IsPartition : List (ℕ × ℕ) → ℕ → ℕ → Prop
  | [], a, b => a = b
  | (s, t) :: cs, a, b => s = a ∧ a < t ∧ IsPartition cs t b

/-- All rows sharing one event id are contiguous in the column: whenever
two positions hold the same eid, every position in between holds it too
(stated with bounded quantifiers so that it stays decidable). -/
@[reducible] def Contiguous (l : List ℕ) : Prop :=
  ∀ k, k < l.length → ∀ j, j < k + 1 → ∀ i, i < j + 1 →
    l.getD i 0 = l.getD k 0 → l.getD j 0 = l.getD i 0

/-- Position c is a boundary between two runs of the column (or one of
the two trivial boundaries). -/
def RunBoundary (l : List ℕ) (c : ℕ) : Prop :=
  l.length ≤ c ∨ c = 0 ∨ (0 < c ∧ l.getD (c - 1) 0 ≠ l.getD c 0)

lemma sumLens_nil : sumLens [] = 0 := rfl

lemma sumLens_cons (p : ℕ × ℕ) (rs : List (ℕ × ℕ)) :
    sumLens (p :: rs) = p.2 + sumLens rs := by
  simp [sumLens]

lemma expandRuns_runs (l : List ℕ) : expandRuns (runs l) = l := by
  induction l with
  | nil => rfl
  | cons a l ih =>
    rw [runs]
    cases hr : runs l with
    | nil =>
      have hl : l = [] := by rw [← ih, hr]; rfl
      subst hl
      rfl
    | cons p rs =>
      obtain ⟨b, n⟩ := p
      rw [hr] at ih
      rw [consRun]
      by_cases hab : a = b
      · rw [if_pos hab]
        show List.replicate (n + 1) a ++ expandRuns rs = a :: l
        rw [List.replicate_succ, hab]
        simpa [expandRuns] using ih
      · rw [if_neg hab]
        show List.replicate 1 a ++ expandRuns ((b, n) :: rs) = a :: l
        simpa using ih

lemma runs_pos (l : List ℕ) : ∀ p ∈ runs l, 0 < p.2 := by
  induction l with
  | nil => intro p hp; cases hp
  | cons a l ih =>
    intro p hp
    rw [runs] at hp
    cases hr : runs l with
    | nil =>
      rw [hr, consRun] at hp
      rcases List.mem_singleton.1 hp with h
      subst h
      exact Nat.one_pos
    | cons q rs =>
      obtain ⟨b, n⟩ := q
      rw [hr] at ih hp
      rw [consRun] at hp
      by_cases hab : a = b
      · rw [if_pos hab] at hp
        rcases List.mem_cons.1 hp with h | h
        · subst h; exact Nat.succ_pos n
        · exact ih p (List.mem_cons_of_mem _ h)
      · rw [if_neg hab] at hp
        rcases List.mem_cons.1 hp with h | h
        · subst h; exact Nat.one_pos
        · exact ih p h

lemma runs_chain (l : List ℕ) :
    List.Chain' (fun p q : ℕ × ℕ => p.1 ≠ q.1) (runs l) := by
  induction l with
  | nil => exact List.chain'_nil
  | cons a l ih =>
    rw [runs]
    cases hr : runs l with
    | nil => rw [consRun]; exact List.chain'_singleton _
    | cons q rs =>
      obtain ⟨b, n⟩ := q
      rw [hr] at ih
      rw [consRun]
      by_cases hab : a = b
      · rw [if_pos hab]
        cases rs with
        | nil => exact List.chain'_singleton _
        | cons q' rs' =>
          rw [List.chain'_cons] at ih ⊢
          exact ⟨hab ▸ ih.1, ih.2⟩
      · rw [if_neg hab]
        exact List.chain'_cons.2 ⟨hab, ih⟩

lemma length_expandRuns (rs : List (ℕ × ℕ)) :
    (expandRuns rs).length = sumLens rs := by
  induction rs with
  | nil => rfl
  | cons p rs ih =>
    obtain ⟨e, n⟩ := p
    rw [expandRuns, sumLens_cons, List.length_append, List.length_replicate,
      ih]

lemma sumLens_runs (l : List ℕ) : sumLens (runs l) = l.length := by
  rw [← length_expandRuns, expandRuns_runs]

lemma isPartition_le : ∀ (cs : List (ℕ × ℕ)) (a b : ℕ),
    IsPartition cs a b → a ≤ b := by
  intro cs
  induction cs with
  | nil => intro a b h; exact le_of_eq h
  | cons c cs ih =>
    obtain ⟨s, t⟩ := c
    intro a b h
    obtain ⟨-, hat, hcs⟩ := h
    exact le_trans (le_of_lt hat) (ih t b hcs)

lemma genArgsAux_partition (maxw : ℚ) :
    ∀ (rs : List (ℕ × ℕ)), (∀ p ∈ rs, 0 < p.2) →
    ∀ (s w : ℕ),
      IsPartition (genArgsAux maxw rs s (s + w) w) s (s + w + sumLens rs) := by
  intro rs
  induction rs with
  | nil =>
    intro _ s w
    by_cases hw : w = 0
    · subst hw
      show IsPartition (if (0 : ℕ) ≠ 0 then [(s, s + 0)] else []) s (s + 0 + sumLens [])
      simp [IsPartition, sumLens]
    · show IsPartition (if w ≠ 0 then [(s, s + w)] else []) s (s + w + sumLens [])
      rw [if_pos hw]
      refine ⟨rfl, ?_, ?_⟩
      · omega
      · show s + w = s + w + sumLens []
        simp [sumLens]
  | cons p rs ih =>
    obtain ⟨e, n⟩ := p
    intro hpos s w
    have hn : 0 < n := hpos (e, n) (List.mem_cons_self _ _)
    have hpos' : ∀ p ∈ rs, 0 < p.2 :=
      fun p hp => hpos p (List.mem_cons_of_mem _ hp)
    show IsPartition
      (if maxw < ((w + n : ℕ) : ℚ) then
        (s, (s + w) + n) :: genArgsAux maxw rs ((s + w) + n) ((s + w) + n) 0
       else genArgsAux maxw rs s ((s + w) + n) (w + n))
      s (s + w + sumLens ((e, n) :: rs))
    have hsum : sumLens ((e, n) :: rs) = n + sumLens rs := by
      simp [sumLens]
    by_cases hy : maxw < ((w + n : ℕ) : ℚ)
    · rw [if_pos hy]
      refine ⟨rfl, by omega, ?_⟩
      have := ih hpos' (s + w + n) 0
      rw [Nat.add_zero] at this
      rw [hsum]
      have harith : s + w + (n + sumLens rs) = s + w + n + 0 + sumLens rs := by
        omega
      rw [harith]
      exact this
    · rw [if_neg hy]
      have := ih hpos' s (w + n)
      rw [hsum]
      have harith1 : s + w + n = s + (w + n) := by omega
      have harith2 : s + w + (n + sumLens rs) = s + (w + n) + sumLens rs := by
        omega
      rw [harith1, harith2]
      exact this

lemma partition_concat (l : List ℕ) :
    ∀ (cs : List (ℕ × ℕ)) (a b : ℕ), IsPartition cs a b → b ≤ l.length →
      cs.foldr (fun c acc => sliceL l c.1 c.2 ++ acc) [] =
        (l.drop a).take (b - a) := by
  intro cs
  induction cs with
  | nil =>
    intro a b h _
    rw [h]
    simp
  | cons c cs ih =>
    obtain ⟨s, t⟩ := c
    intro a b h hb
    obtain ⟨hs, hat, hcs⟩ := h
    subst hs
    have htb : t ≤ b := isPartition_le cs t b hcs
    show sliceL l s t ++ cs.foldr (fun c acc => sliceL l c.1 c.2 ++ acc) []
      = (l.drop s).take (b - s)
    rw [ih t b hcs hb]
    rw [sliceL]
    have hsplit : b - s = (t - s) + (b - t) := by omega
    have hdrop : (l.drop s).drop (t - s) = l.drop t := by
      rw [List.drop_drop]
      congr 1
      omega
    rw [hsplit, List.take_add, hdrop]

lemma gen_args_partition (maxw : ℚ) (eids : List ℕ) :
    IsPartition (gen_args maxw eids) 0 eids.length := by
  have := genArgsAux_partition maxw (runs eids) (runs_pos eids) 0 0
  rw [sumLens_runs] at this
  simpa [gen_args] using this

/-- Claim C3: for every weight bound and every eid column, the slices
produced by gen_args tile the interval from 0 to the number of rows
(contiguous, ordered, nonempty, pairwise disjoint slices), and
concatenating the sliced rows in order reproduces the column exactly. -/
theorem claim_C3 (maxw : ℚ) (eids : List ℕ) :
    IsPartition (gen_args maxw eids) 0 eids.length ∧
    (gen_args maxw eids).foldr (fun c acc => sliceL eids c.1 c.2 ++ acc) []
      = eids := by
  have hpart := gen_args_partition maxw eids
  refine ⟨hpart, ?_⟩
  rw [partition_concat eids _ 0 eids.length hpart (le_refl _)]
  simp

lemma getD_drop (l : List ℕ) : ∀ (c i : ℕ),
    (l.drop c).getD i 0 = l.getD (c + i) 0 := by
  induction l with
  | nil => intro c i; simp
  | cons a l ih =>
    intro c i
    cases c with
    | zero => simp
    | succ c =>
      show (l.drop c).getD i 0 = (a :: l).getD (c + 1 + i) 0
      rw [ih c i]
      have harith : c + 1 + i = (c + i) + 1 := by omega
      rw [harith, List.getD_cons_succ]

lemma getD_replicate_lt (e : ℕ) (n i : ℕ) (h : i < n) :
    (List.replicate n e).getD i 0 = e := by
  rw [List.getD_eq_getElem _ _ (by simpa using h), List.getElem_replicate]

lemma genArgsAux_end_boundary (maxw : ℚ) (eids : List ℕ) :
    ∀ (rs : List (ℕ × ℕ)) (s stop w : ℕ),
      expandRuns rs = eids.drop stop →
      (∀ p ∈ rs, 0 < p.2) →
      List.Chain' (fun p q : ℕ × ℕ => p.1 ≠ q.1) rs →
      ∀ c ∈ genArgsAux maxw rs s stop w, RunBoundary eids c.2 := by
  intro rs
  induction rs with
  | nil =>
    intro s stop w hexp _ _ c hcmem
    have hlen : eids.length ≤ stop := by
      have hthis := congrArg List.length hexp
      rw [List.length_drop] at hthis
      have hz : (expandRuns []).length = 0 := rfl
      omega
    by_cases hw : w = 0
    · subst hw
      simp [genArgsAux] at hcmem
    · simp [genArgsAux, hw] at hcmem
      subst hcmem
      exact Or.inl hlen
  | cons p rs ih =>
    obtain ⟨e, n⟩ := p
    intro s stop w hexp hpos hchain c hcmem
    have hn : 0 < n := hpos (e, n) (List.mem_cons_self _ _)
    have hpos' : ∀ p ∈ rs, 0 < p.2 :=
      fun p hp => hpos p (List.mem_cons_of_mem _ hp)
    have hchain' := hchain.tail
    rw [expandRuns] at hexp
    have hd : eids.drop (stop + n) = expandRuns rs := by
      rw [← List.drop_drop n stop eids, ← hexp,
        List.drop_left' (List.length_replicate n e)]
    have hbound : RunBoundary eids (stop + n) := by
      cases hrs : rs with
      | nil =>
        subst hrs
        have : eids.drop (stop + n) = [] := by rw [hd]; rfl
        have hlen := congrArg List.length this
        simp [List.length_drop] at hlen
        exact Or.inl (by omega)
      | cons q rs2 =>
        obtain ⟨e2, n2⟩ := q
        subst hrs
        have hn2 : 0 < n2 := hpos' (e2, n2) (List.mem_cons_self _ _)
        have hne : e ≠ e2 := (List.chain'_cons.1 hchain).1
        have hlt : stop + n ≤ eids.length := by
          have := congrArg List.length hd
          simp [List.length_drop, expandRuns, List.length_append] at this
          omega
        have hlt2 : stop + n < eids.length := by
          have := congrArg List.length hd
          rw [List.length_drop, expandRuns, List.length_append,
            List.length_replicate] at this
          omega
        have hprev : eids.getD (stop + n - 1) 0 = e := by
          have harith : stop + n - 1 = stop + (n - 1) := by omega
          rw [harith, ← getD_drop, ← hexp, List.getD_append _ _ _ _
            (by simpa using Nat.sub_lt hn Nat.one_pos),
            getD_replicate_lt _ _ _ (Nat.sub_lt hn Nat.one_pos)]
        have hcur : eids.getD (stop + n) 0 = e2 := by
          rw [← getD_drop, ← hexp,
            List.getD_append_right _ _ _ _ (by simp)]
          rw [List.length_replicate, Nat.sub_self, expandRuns,
            List.getD_append _ _ _ _ (by simpa using hn2),
            getD_replicate_lt _ _ _ hn2]
        refine Or.inr (Or.inr ⟨by omega, ?_⟩)
        rw [hprev, hcur]
        exact hne
    have hunf : genArgsAux maxw ((e, n) :: rs) s stop w =
        (if maxw < ((w + n : ℕ) : ℚ) then
          (s, stop + n) :: genArgsAux maxw rs (stop + n) (stop + n) 0
         else genArgsAux maxw rs s (stop + n) (w + n)) := rfl
    rw [hunf] at hcmem
    by_cases hy : maxw < ((w + n : ℕ) : ℚ)
    · rw [if_pos hy] at hcmem
      rcases List.mem_cons.1 hcmem with h | h
      · subst h
        exact hbound
      · exact ih (stop + n) (stop + n) 0 hd.symm hpos' hchain' c h
    · rw [if_neg hy] at hcmem
      exact ih s (stop + n) (w + n) hd.symm hpos' hchain' c hcmem

lemma gen_args_end_boundary (maxw : ℚ) (eids : List ℕ) :
    ∀ c ∈ gen_args maxw eids, RunBoundary eids c.2 :=
  genArgsAux_end_boundary maxw eids (runs eids) 0 0 0
    (by rw [expandRuns_runs, List.drop_zero]) (runs_pos eids)
    (runs_chain eids)

lemma isPartition_mem_bounds : ∀ (cs : List (ℕ × ℕ)) (a b : ℕ),
    IsPartition cs a b → ∀ c ∈ cs, a ≤ c.1 ∧ c.1 < c.2 ∧ c.2 ≤ b := by
  intro cs
  induction cs with
  | nil => intro a b _ c hc; cases hc
  | cons q cs ih =>
    obtain ⟨s, t⟩ := q
    intro a b h c hc
    obtain ⟨hs, hat, hcs⟩ := h
    subst hs
    rcases List.mem_cons.1 hc with h | h
    · subst h
      exact ⟨le_refl _, hat, isPartition_le cs t b hcs⟩
    · obtain ⟨h1, h2, h3⟩ := ih t b hcs c h
      exact ⟨le_trans (le_of_lt hat) h1, h2, h3⟩

lemma isPartition_order : ∀ (cs : List (ℕ × ℕ)) (a b : ℕ),
    IsPartition cs a b → ∀ c1 ∈ cs, ∀ c2 ∈ cs,
      c1 = c2 ∨ c1.2 ≤ c2.1 ∨ c2.2 ≤ c1.1 := by
  intro cs
  induction cs with
  | nil => intro a b _ c1 hc1; cases hc1
  | cons q cs ih =>
    obtain ⟨s, t⟩ := q
    intro a b h c1 hc1 c2 hc2
    obtain ⟨hs, hat, hcs⟩ := h
    rcases List.mem_cons.1 hc1 with h1 | h1 <;>
      rcases List.mem_cons.1 hc2 with h2 | h2
    · exact Or.inl (h1.trans h2.symm)
    · subst h1
      exact Or.inr (Or.inl (isPartition_mem_bounds cs t b hcs c2 h2).1)
    · subst h2
      exact Or.inr (Or.inr (isPartition_mem_bounds cs t b hcs c1 h1).1)
    · exact ih t b hcs c1 h1 c2 h2

lemma mem_take_getD : ∀ (m : List ℕ) (k e : ℕ), e ∈ m.take k →
    ∃ j, j < k ∧ j < m.length ∧ m.getD j 0 = e := by
  intro m
  induction m with
  | nil => intro k e h; simp at h
  | cons a m ih =>
    intro k e h
    cases k with
    | zero => simp at h
    | succ k =>
      rw [List.take_succ_cons] at h
      rcases List.mem_cons.1 h with h | h
      · exact ⟨0, Nat.succ_pos _, Nat.succ_pos _, h.symm⟩
      · obtain ⟨j, hj1, hj2, hj3⟩ := ih k e h
        exact ⟨j + 1, by omega, by simpa using hj2, by
          rw [List.getD_cons_succ]; exact hj3⟩

lemma mem_sliceL (l : List ℕ) (s t e : ℕ) (h : e ∈ sliceL l s t) :
    ∃ i, s ≤ i ∧ i < t ∧ i < l.length ∧ l.getD i 0 = e := by
  rw [sliceL] at h
  obtain ⟨j, hj1, hj2, hj3⟩ := mem_take_getD (l.drop s) (t - s) e h
  rw [List.length_drop] at hj2
  rw [getD_drop] at hj3
  exact ⟨s + j, by omega, by omega, by omega, hj3⟩

/-- Claim C4: when all rows sharing one event id are contiguous in the
input column, gen_args never splits an event across two chunks: no event
id occurs in the rows of two different slices. -/
theorem claim_C4 (maxw : ℚ) (eids : List ℕ) (hc : Contiguous eids)
    (c1 c2 : ℕ × ℕ) (h1 : c1 ∈ gen_args maxw eids)
    (h2 : c2 ∈ gen_args maxw eids) (hne : c1 ≠ c2) (e : ℕ)
    (he1 : e ∈ sliceL eids c1.1 c1.2) : e ∉ sliceL eids c2.1 c2.2 := by
  intro he2
  obtain ⟨i1, hi1s, hi1t, hi1l, hg1⟩ := mem_sliceL eids c1.1 c1.2 e he1
  obtain ⟨i2, hi2s, hi2t, hi2l, hg2⟩ := mem_sliceL eids c2.1 c2.2 e he2
  have hpart := gen_args_partition maxw eids
  rcases isPartition_order _ 0 eids.length hpart c1 h1 c2 h2 with
    heq | hlt | hlt
  · exact hne heq
  · have hb := gen_args_end_boundary maxw eids c1 h1
    have hcut1 : i1 < c1.2 := hi1t
    have hcut2 : c1.2 ≤ i2 := le_trans hlt hi2s
    rcases hb with hlen | hzero | ⟨hpos, hneq⟩
    · omega
    · omega
    · have h1e : eids.getD i1 0 = eids.getD i2 0 := by rw [hg1, hg2]
      have hcm1 : eids.getD (c1.2 - 1) 0 = eids.getD i1 0 :=
        hc i2 hi2l (c1.2 - 1) (by omega) i1 (by omega) h1e
      have hcm2 : eids.getD c1.2 0 = eids.getD i1 0 :=
        hc i2 hi2l c1.2 (by omega) i1 (by omega) h1e
      exact hneq (by rw [hcm1, hcm2])
  · have hb := gen_args_end_boundary maxw eids c2 h2
    have hcut1 : i2 < c2.2 := hi2t
    have hcut2 : c2.2 ≤ i1 := le_trans hlt hi1s
    rcases hb with hlen | hzero | ⟨hpos, hneq⟩
    · omega
    · omega
    · have h1e : eids.getD i2 0 = eids.getD i1 0 := by rw [hg1, hg2]
      have hcm1 : eids.getD (c2.2 - 1) 0 = eids.getD i2 0 :=
        hc i1 hi1l (c2.2 - 1) (by omega) i2 (by omega) h1e
      have hcm2 : eids.getD c2.2 0 = eids.getD i2 0 :=
        hc i1 hi1l c2.2 (by omega) i2 (by omega) h1e
      exact hneq (by rw [hcm1, hcm2])

/-- Witness for claim C4 at a concrete input. -/
theorem claim_C4_witness :
    Contiguous [1, 1, 2, 3] ∧ (0, 3) ∈ gen_args 2 [1, 1, 2, 3] ∧
    (3, 4) ∈ gen_args 2 [1, 1, 2, 3] ∧ ((0, 3) : ℕ × ℕ) ≠ (3, 4) ∧
    (1 : ℕ) ∈ sliceL [1, 1, 2, 3] 0 3 ∧
    (1 : ℕ) ∉ sliceL [1, 1, 2, 3] 3 4 :=
  ⟨by decide, by decide, by decide, by decide, by decide,
    claim_C4 2 [1, 1, 2, 3] (by decide) (0, 3) (3, 4) (by decide) (by decide)
      (by decide) 1 (by decide)⟩

lemma genArgsAux_weight (maxw B : ℚ) (hB : 0 ≤ B) :
    ∀ (rs : List (ℕ × ℕ)), (∀ p ∈ rs, ((p.2 : ℕ) : ℚ) ≤ B) →
    ∀ (s w : ℕ), ((w : ℕ) : ℚ) ≤ maxw →
    ∀ c ∈ genArgsAux maxw rs s (s + w) w,
      (((c.2 - c.1 : ℕ)) : ℚ) ≤ maxw + B := by
  intro rs
  induction rs with
  | nil =>
    intro _ s w hw c hcmem
    by_cases hw0 : w = 0
    · subst hw0
      simp [genArgsAux] at hcmem
    · simp only [genArgsAux, ne_eq, hw0, not_false_iff, if_true,
        List.mem_singleton] at hcmem
      subst hcmem
      have harith : s + w - s = w := by omega
      simp only [harith]
      linarith
  | cons p rs ih =>
    obtain ⟨e, n⟩ := p
    intro hlens s w hw c hcmem
    have hn : ((n : ℕ) : ℚ) ≤ B := hlens (e, n) (List.mem_cons_self _ _)
    have hlens' : ∀ p ∈ rs, ((p.2 : ℕ) : ℚ) ≤ B :=
      fun p hp => hlens p (List.mem_cons_of_mem _ hp)
    have hunf : genArgsAux maxw ((e, n) :: rs) s (s + w) w =
        (if maxw < ((w + n : ℕ) : ℚ) then
          (s, (s + w) + n) ::
            genArgsAux maxw rs ((s + w) + n) ((s + w) + n) 0
         else genArgsAux maxw rs s ((s + w) + n) (w + n)) := rfl
    rw [hunf] at hcmem
    by_cases hy : maxw < ((w + n : ℕ) : ℚ)
    · rw [if_pos hy] at hcmem
      rcases List.mem_cons.1 hcmem with h | h
      · subst h
        have harith : s + w + n - s = w + n := by omega
        simp only [harith]
        push_cast
        push_cast at hw hn
        linarith
      · have h0 : ((0 : ℕ) : ℚ) ≤ maxw := by
          have : ((0 : ℕ) : ℚ) ≤ ((w : ℕ) : ℚ) := by positivity
          linarith
        have := ih hlens' (s + w + n) 0 h0 c
        rw [Nat.add_zero] at this
        exact this h
    · rw [if_neg hy] at hcmem
      have hwn : ((w + n : ℕ) : ℚ) ≤ maxw := not_lt.1 hy
      have := ih hlens' s (w + n) hwn c
      have harith : s + (w + n) = s + w + n := by omega
      rw [harith] at this
      exact this hcmem

/-- Counterexample to claim C1: with max chunk weight 2 and the four-row
input of the end-to-end scenario, gen_args yields the slices (0, 3) and
(3, 4); the first chunk has weight 3 > 2 although it mixes the rows of the
two distinct event ids 1 and 2 (so it is not a single indivisible group),
and the chunking claimed by the spec, (0, 2) and (2, 4), is not
produced. -/
theorem claim_C1_counterexample :
    gen_args 2 [1, 1, 2, 3] = [(0, 3), (3, 4)] ∧
    gen_args 2 [1, 1, 2, 3] ≠ [(0, 2), (2, 4)] ∧
    sliceL [1, 1, 2, 3] 0 3 = [1, 1, 2] ∧
    (1 : ℕ) ∈ sliceL [1, 1, 2, 3] 0 3 ∧ (2 : ℕ) ∈ sliceL [1, 1, 2, 3] 0 3 ∧
    ¬ (((3 - 0 : ℕ)) : ℚ) ≤ 2 := by
  refine ⟨by decide, by decide, by decide, by decide, by decide, ?_⟩
  norm_num

/-- Claim C1 as amended: gen_args closes a chunk only after the bound is
passed, so a chunk may exceed the maximum weight by (at most) the weight
of its final event group: whenever every event group of the input weighs
at most B, every chunk weighs at most maxweight + B; and on the scenario
input [1, 1, 2, 3] with max chunk weight 2 exactly two chunks are
produced, the first holding the eid 1 rows together with the eid 2 row
and the second the eid 3 row. -/
theorem claim_C1 (maxw B : ℚ) (eids : List ℕ) (hpos : 0 < maxw)
    (hB : 0 ≤ B) (hruns : ∀ p ∈ runs eids, ((p.2 : ℕ) : ℚ) ≤ B) :
    (∀ c ∈ gen_args maxw eids, (((c.2 - c.1 : ℕ)) : ℚ) ≤ maxw + B) ∧
    gen_args 2 [1, 1, 2, 3] = [(0, 3), (3, 4)] := by
  constructor
  · intro c hcmem
    exact genArgsAux_weight maxw B hB (runs eids) hruns 0 0
      (by norm_num [le_of_lt hpos]) c hcmem
  · decide

/-- Witness for the amended claim C1 at a concrete input. -/
theorem claim_C1_witness :
    (0 : ℚ) < 2 ∧ (0 : ℚ) ≤ 2 ∧
    (∀ p ∈ runs [1, 1, 2, 3], ((p.2 : ℕ) : ℚ) ≤ 2) ∧
    (∀ c ∈ gen_args 2 [1, 1, 2, 3], (((c.2 - c.1 : ℕ)) : ℚ) ≤ 2 + 2) ∧
    gen_args 2 [1, 1, 2, 3] = [(0, 3), (3, 4)] :=
  ⟨by norm_num, by norm_num, by decide,
    (claim_C1 2 2 [1, 1, 2, 3] (by norm_num) (by norm_num) (by decide)).1,
    (claim_C1 2 2 [1, 1, 2, 3] (by norm_num) (by norm_num) (by decide)).2⟩

/-- TWO32 = 2 ** 32 (line 41 of event_based_risk.py). -/
def TWO32 : ℕ := 2 ^ 32

/-- alt_nbytes = 4 * self.E * L (line 316): the worst-case size of the
event loss table, at 4 bytes per (event, loss type) cell. -/
def alt_nbytes (E L : ℕ) : ℕ := 4 * E * L

/-- The pre-flight capacity guard (lines 317-319): true when
alt_nbytes / (concurrent_tasks or 1) > TWO32, in which case pre_execute
raises RuntimeError before dispatching any task. -/
def transfer_too_big (E L ct : ℕ) : Bool :=
  decide ((TWO32 : ℚ) <
    ((alt_nbytes E L : ℕ) : ℚ) / (((if ct = 0 then 1 else ct) : ℕ) : ℚ))

/-- Counterexample to claim C6: at num_events = 10 ^ 8, num_loss_types =
3 and num_tasks = 1 the guard accepts (4 * 10 ^ 8 * 3 = 1.2e9 bytes does
not exceed the 2 ^ 32 ceiling), where the claim says it must reject; the
num_tasks = 1000 case passes as the claim says. -/
theorem claim_C6_counterexample :
    transfer_too_big (10 ^ 8) 3 1 = false ∧
    transfer_too_big (10 ^ 8) 3 1000 = false := by
  constructor <;>
    · simp only [transfer_too_big, alt_nbytes, TWO32]
      rw [decide_eq_false_iff_not]
      norm_num

/-- Claim C6 as amended: the guard computes the worst-case per-task size
as 4 * num_events * num_loss_types / num_tasks bytes (4 bytes per row,
not 16) and rejects exactly when this exceeds the 2 ^ 32 transport
ceiling; with num_events = 10 ^ 8, num_loss_types = 3 it passes for both
num_tasks = 1 and num_tasks = 1000, while for example num_events =
2 * 10 ^ 9 is rejected at num_tasks = 1 and passes at num_tasks = 1000. -/
theorem claim_C6 :
    (∀ E L ct : ℕ, transfer_too_big E L ct = true ↔
      (TWO32 : ℚ) <
        ((4 * E * L : ℕ) : ℚ) / (((if ct = 0 then 1 else ct) : ℕ) : ℚ)) ∧
    transfer_too_big (10 ^ 8) 3 1 = false ∧
    transfer_too_big (10 ^ 8) 3 1000 = false ∧
    transfer_too_big (2 * 10 ^ 9) 3 1 = true ∧
    transfer_too_big (2 * 10 ^ 9) 3 1000 = false := by
  refine ⟨?_, ?_, ?_, ?_, ?_⟩
  · intro E L ct
    simp [transfer_too_big, alt_nbytes]
  all_goals simp only [transfer_too_big, alt_nbytes, TWO32]
  · rw [decide_eq_false_iff_not]; norm_num
  · rw [decide_eq_false_iff_not]; norm_num
  · rw [decide_eq_true_eq]; norm_num
  · rw [decide_eq_false_iff_not]; norm_num

/-- The RuntimeError message of lines 337-339. -/
def no_gmfs_msg : String :=
  "No GMFs were generated, perhaps they were all below the minimum_intensity threshold"

/-- gmf_info collection of the ebrisk task (lines 200-205): one entry is
appended per computer whose GMF data is nonempty (only the entry count
matters for the guard, so an entry is recorded as its row count). -/
def gmf_info_of (datas : List (List ℕ)) : List ℕ :=
  (datas.filter (fun d => d.length != 0)).map List.length

/-- The from-ruptures branch of execute (lines 326-339): after the
reduction, if no gmf_info entries were collected, raise RuntimeError with
an actionable message; otherwise proceed normally. -/
def execute_from_ruptures (datas : List (List ℕ)) : Except String Unit :=
  if (gmf_info_of datas).length = 0 then Except.error no_gmfs_msg
  else Except.ok ()

/-- Claim C8: a run from ruptures that produces zero hazard rows overall
ends with the fatal no-GMFs error, not with a silent empty result. -/
theorem claim_C8 (datas : List (List ℕ))
    (h : (datas.map List.length).sum = 0) :
    execute_from_ruptures datas = Except.error no_gmfs_msg := by
  have hnil : gmf_info_of datas = [] := by
    rw [gmf_info_of, List.map_eq_nil_iff, List.filter_eq_nil_iff]
    intro d hd
    have hz : d.length = 0 :=
      List.sum_eq_zero_iff.1 h d.length (List.mem_map_of_mem List.length hd)
    simp [hz]
  rw [execute_from_ruptures, hnil]
  rfl

/-- Witness for claim C8 at a concrete input. -/
theorem claim_C8_witness :
    (([[], []] : List (List ℕ)).map List.length).sum = 0 ∧
    execute_from_ruptures [[], []] = Except.error no_gmfs_msg :=
  ⟨by decide, claim_C8 [[], []] (by decide)⟩

/-- One row of the gmf_data frame (only the site and event columns play a
role in the embedded control flow). -/
structure GmfRow where
  sid : ℕ
  eid : ℕ
deriving DecidableEq

/-- One iteration of the taxonomy loop of the event_based_risk task
(lines 103-116), restricted to one loss type: the group selects the GMF
rows at the sites of its assets (line 104), is skipped when none remain
(lines 105-106), and otherwise has the aggregated losses of its output
merged into the task accumulator (line 116).  The external crmodel is the
getOutput parameter. -/
def ebrStep {α : Type} [CommRing α] (sqrt : α → α) (correl : Bool)
    (K : ℕ) (kids : List ℕ)
    (getOutput : ℕ → List GmfRow → List (LossRow α)) (df : List GmfRow)
    (acc : ℕ × ℕ → α × α) (g : ℕ × List ℕ) : ℕ × ℕ → α × α :=
  let gmf_df := df.filter (fun r => g.2.contains r.sid)
  if gmf_df.isEmpty then acc
  else lbeAdd acc (aggregate_losses sqrt correl K kids (getOutput g.1 gmf_df))

/-- The full taxonomy loop: fold ebrStep over the taxonomy groups,
starting from the empty accumulator (lines 95-96, 103-116). -/
def event_based_risk_lbe {α : Type} [CommRing α] (sqrt : α → α)
    (correl : Bool) (K : ℕ) (kids : List ℕ)
    (getOutput : ℕ → List GmfRow → List (LossRow α))
    (groups : List (ℕ × List ℕ)) (df : List GmfRow) : ℕ × ℕ → α × α :=
  groups.foldl (ebrStep sqrt correl K kids getOutput df) lbeZero

lemma ebrStep_skip {α : Type} [CommRing α] (sqrt : α → α) (correl : Bool)
    (K : ℕ) (kids : List ℕ)
    (getOutput : ℕ → List GmfRow → List (LossRow α)) (df : List GmfRow)
    (acc : ℕ × ℕ → α × α) (g : ℕ × List ℕ)
    (h : df.filter (fun r => g.2.contains r.sid) = []) :
    ebrStep sqrt correl K kids getOutput df acc g = acc := by
  show (if (df.filter (fun r => g.2.contains r.sid)).isEmpty then acc
    else lbeAdd acc (aggregate_losses sqrt correl K kids
      (getOutput g.1 (df.filter (fun r => g.2.contains r.sid))))) = acc
  rw [h]
  rfl

/-- Claim C9: a taxonomy group with no hazard rows at the sites of its
assets is skipped: the task accumulator is the same as if the group were
absent, no error is raised, and the remaining groups are processed. -/
theorem claim_C9 {α : Type} [CommRing α] (sqrt : α → α) (correl : Bool)
    (K : ℕ) (kids : List ℕ)
    (getOutput : ℕ → List GmfRow → List (LossRow α))
    (gs1 gs2 : List (ℕ × List ℕ)) (taxo : ℕ) (sites : List ℕ)
    (df : List GmfRow)
    (h : df.filter (fun r => sites.contains r.sid) = []) :
    event_based_risk_lbe sqrt correl K kids getOutput
      (gs1 ++ (taxo, sites) :: gs2) df
      = event_based_risk_lbe sqrt correl K kids getOutput (gs1 ++ gs2) df := by
  simp only [event_based_risk_lbe, List.foldl_append, List.foldl_cons]
  rw [ebrStep_skip sqrt correl K kids getOutput df _ (taxo, sites) h]

/-- Witness for claim C9 at a concrete input. -/
theorem claim_C9_witness :
    ([⟨1, 1⟩] : List GmfRow).filter (fun r => [5].contains r.sid) = [] ∧
    event_based_risk_lbe (α := ℚ) id false 0 [] (fun _ _ => [])
      ([] ++ (0, [5]) :: []) [⟨1, 1⟩]
      = event_based_risk_lbe (α := ℚ) id false 0 [] (fun _ _ => [])
          ([] ++ []) [⟨1, 1⟩] :=
  ⟨by decide,
    claim_C9 id false 0 [] (fun _ _ => []) [] [] 0 [5] [⟨1, 1⟩] (by decide)⟩

end EventBasedRisk
